import Mathlib

/-!
Verification of the tracedb write path core: a shallow embedding of the
batch layer (batch.go) and of the write-ahead log (wal/wal.go), with
theorems settling the behavioural claims about internal keys, batch
deduplication, conflict detection, the commit scan and the WAL scan and
reclaim operations.

Machine integers of the source (uint8, uint16, uint32, uint64) are
modelled as Nat with explicit reduction modulo the corresponding power of
two exactly where the Go arithmetic can overflow or truncate.  Byte
slices are modelled as lists of Nat.
-/

namespace Tracedb

/-! ## Little-endian byte encoding, from encoding/binary as used in batch.go -/

/-- Little-endian encoding of a natural number into w bytes, the model of
binary.LittleEndian.PutUint64 and PutUint32 (with w = 8 and w = 4). -/
def toLE : Nat → Nat → List Nat
  | 0, _ => []
  | w + 1, n => n % 256 :: toLE w (n / 256)

/-- Little-endian decoding of a byte list, the model of
binary.LittleEndian.Uint64 and Uint32. -/
def fromLE : List Nat → Nat
  | [] => 0
  | b :: bs => b + 256 * fromLE bs

theorem toLE_length (w n : Nat) : (toLE w n).length = w := by
  induction w generalizing n with
  | zero => rfl
  | succ w ih => simp [toLE, ih]

theorem fromLE_toLE (w n : Nat) : fromLE (toLE w n) = n % 256 ^ w := by
  induction w generalizing n with
  | zero => simp [toLE, fromLE, Nat.mod_one]
  | succ w ih =>
    simp only [toLE, fromLE, ih]
    rw [pow_succ, mul_comm (256 ^ w) 256, Nat.mod_mul]

/-! ## Internal keys (batch.go lines 47 to 75) -/

/-- Maximum value possible for a sequence number; the low 8 bits of the
packed field hold the value type. -/
def keyMaxSeq : Nat := 2 ^ 56 - 1

/-- Numeric value of the delete flag byte packed into an internal key. -/
def dBitOf (dFlag : Bool) : Nat := if dFlag then 1 else 0

/-- Model of makeInternalKey.  The Go function panics when seq exceeds
keyMaxSeq; the panic is modelled as none.  The scratch buffer argument dst
of the Go function is only a reusable allocation and is omitted. -/
def makeInternalKey (ukey : List Nat) (seq : Nat) (dFlag : Bool) (expiresAt : Nat) :
    Option (List Nat) :=
  if keyMaxSeq < seq then none
  else some (ukey ++ toLE 8 ((seq <<< 8) ||| dBitOf dFlag) ++ toLE 4 (expiresAt % 2 ^ 32))

/-- Model of parseInternalKey.  The Go function returns the tuple
(ukey, seq, dFlag, expiresAt, err); the error is modelled as a final
Boolean component, true standing for a non-nil error value.  The Go
function declares err as a named result that is never assigned: on an
input shorter than 12 bytes it only logs the invalid length and falls
through a bare return, so every path yields a nil error and the short
path yields the Go zero values for the other components. -/
def parseInternalKey (ik : List Nat) : List Nat × Nat × Bool × Nat × Bool :=
  if ik.length < 12 then ([], 0, false, 0, false)
  else
    let expiresAt := fromLE (ik.drop (ik.length - 4))
    let num := fromLE ((ik.drop (ik.length - 12)).take 8)
    (ik.take (ik.length - 12), num >>> 8, num &&& 255 != 0, expiresAt, false)

theorem lor_of_mod_eq_zero {m d k : Nat} (hm : m % 2 ^ k = 0) (hd : d < 2 ^ k) :
    m ||| d = m + d := by
  obtain ⟨a, ha⟩ : 2 ^ k ∣ m := Nat.dvd_of_mod_eq_zero hm
  subst ha
  apply Nat.eq_of_testBit_eq
  intro j
  rw [Nat.testBit_lor, Nat.testBit_mul_pow_two_add a hd j]
  have h0 : Nat.testBit (2 ^ k * a) j =
      if j < k then Nat.testBit 0 j else Nat.testBit a (j - k) := by
    have := Nat.testBit_mul_pow_two_add a (b := 0) (i := k) (Nat.two_pow_pos k) j
    simpa using this
  rw [h0]
  by_cases hj : j < k
  · simp [hj]
  · have hdj : Nat.testBit d j = false :=
      Nat.testBit_lt_two_pow (lt_of_lt_of_le hd (Nat.pow_le_pow_right (by norm_num) (Nat.le_of_not_lt hj)))
    simp [hj, hdj]

theorem pack_eq (seq : Nat) (dFlag : Bool) :
    (seq <<< 8) ||| dBitOf dFlag = seq * 256 + dBitOf dFlag := by
  have hs : seq <<< 8 = seq * 256 := by rw [Nat.shiftLeft_eq]
  rw [hs]
  apply lor_of_mod_eq_zero (k := 8)
  · simp [Nat.mul_mod_left]
  · cases dFlag <;> simp [dBitOf]

/-- C4: internal-key round trip.  For every user key, every seq up to
keyMaxSeq, every delete flag and expiry value, parseInternalKey applied to
the key produced by makeInternalKey returns exactly the original tuple
with no error; the produced key is the user key followed by the 8-byte
little-endian encoding of the packed field (seq shifted left by 8, or-ed
with the delete bit) followed by the 4-byte little-endian expiry, so its
length is the user key length plus 12. -/
theorem internalKey_roundtrip (ukey : List Nat) (seq : Nat) (dFlag : Bool) (expiresAt : Nat)
    (hseq : seq ≤ keyMaxSeq) (hexp : expiresAt < 2 ^ 32) :
    ∃ ik, makeInternalKey ukey seq dFlag expiresAt = some ik ∧
      ik = ukey ++ toLE 8 ((seq <<< 8) ||| dBitOf dFlag) ++ toLE 4 expiresAt ∧
      ik.length = ukey.length + 12 ∧
      parseInternalKey ik = (ukey, seq, dFlag, expiresAt, false) := by
  have hd1 : dBitOf dFlag ≤ 1 := by cases dFlag <;> simp [dBitOf]
  have hK : keyMaxSeq = 72057594037927935 := by norm_num [keyMaxSeq]
  have hPeq : (seq <<< 8) ||| dBitOf dFlag = seq * 256 + dBitOf dFlag := pack_eq seq dFlag
  refine ⟨ukey ++ toLE 8 ((seq <<< 8) ||| dBitOf dFlag) ++ toLE 4 expiresAt, ?_, rfl, ?_, ?_⟩
  · unfold makeInternalKey
    rw [if_neg (not_lt.mpr hseq), Nat.mod_eq_of_lt hexp]
  · simp [List.length_append, toLE_length]
  · have hlen : (ukey ++ toLE 8 ((seq <<< 8) ||| dBitOf dFlag) ++ toLE 4 expiresAt).length =
        ukey.length + 12 := by
      simp [List.length_append, toLE_length]
    unfold parseInternalKey
    rw [if_neg (by rw [hlen]; omega)]
    simp only []
    rw [hlen]
    have h12 : ukey.length + 12 - 12 = ukey.length := by omega
    have h4 : ukey.length + 12 - 4 = (ukey ++ toLE 8 ((seq <<< 8) ||| dBitOf dFlag)).length := by
      simp [List.length_append, toLE_length]
    rw [h12, h4]
    rw [List.append_assoc ukey]
    rw [List.take_left, List.drop_left]
    rw [← List.append_assoc ukey, List.drop_left]
    rw [List.take_left' (toLE_length 8 _)]
    have hnum : fromLE (toLE 8 ((seq <<< 8) ||| dBitOf dFlag)) = seq * 256 + dBitOf dFlag := by
      rw [fromLE_toLE, hPeq, Nat.mod_eq_of_lt]
      have : (256 : Nat) ^ 8 = 18446744073709551616 := by norm_num
      rw [this]
      rw [hK] at hseq
      omega
    have hexp2 : fromLE (toLE 4 expiresAt) = expiresAt := by
      rw [fromLE_toLE, Nat.mod_eq_of_lt]
      have : (256 : Nat) ^ 4 = 2 ^ 32 := by norm_num
      omega
    rw [hnum, hexp2]
    have hshift : (seq * 256 + dBitOf dFlag) >>> 8 = seq := by
      rw [Nat.shiftRight_eq_div_pow]
      have : (2 : Nat) ^ 8 = 256 := by norm_num
      rw [this]
      omega
    have hand : (seq * 256 + dBitOf dFlag) &&& 255 = dBitOf dFlag := by
      have h255 : (255 : Nat) = 2 ^ 8 - 1 := by norm_num
      rw [h255, Nat.and_pow_two_sub_one_eq_mod]
      have : (2 : Nat) ^ 8 = 256 := by norm_num
      rw [this]
      omega
    rw [hshift, hand]
    have hflag : (dBitOf dFlag != 0) = dFlag := by cases dFlag <;> simp [dBitOf]
    rw [hflag]

/-- C7 counterexample: on the concrete three-byte input the error
component returned by parseInternalKey is false (a nil Go error), so
the claim that a short input reports an error to the caller fails; the
function only logs and returns zero values. -/
theorem parseInternalKey_short_err_nil :
    ([1, 2, 3] : List Nat).length < 12 ∧
    parseInternalKey [1, 2, 3] = ([], 0, false, 0, false) ∧
    (parseInternalKey [1, 2, 3]).2.2.2.2 ≠ true := by
  refine ⟨by decide, by decide, by decide⟩

/-- C7 as amended: for every byte slice shorter than 12 bytes,
parseInternalKey returns the Go zero values for the user key, the
sequence, the delete flag and the expiry together with a nil error (it
only logs the invalid length), and in fact no input at all makes it
return a non-nil error, so a malformed slot is treated as a no-op by
the seq filter of the caller rather than through error propagation. -/
theorem parseInternalKey_short (ik : List Nat) (h : ik.length < 12) :
    parseInternalKey ik = ([], 0, false, 0, false) ∧
    ∀ jk : List Nat, (parseInternalKey jk).2.2.2.2 = false := by
  constructor
  · unfold parseInternalKey
    rw [if_pos h]
  · intro jk
    unfold parseInternalKey
    by_cases hk : jk.length < 12
    · rw [if_pos hk]
    · rw [if_neg hk]

/-- Witness for parseInternalKey_short at the concrete three-byte input. -/
theorem parseInternalKey_short_witness :
    [1, 2, 3].length < 12 ∧
    (parseInternalKey [1, 2, 3] = ([], 0, false, 0, false) ∧
      ∀ jk : List Nat, (parseInternalKey jk).2.2.2.2 = false) :=
  ⟨by decide, parseInternalKey_short [1, 2, 3] (by decide)⟩

/-- C8: makeInternalKey refuses (the Go code panics) exactly when the
sequence number exceeds keyMaxSeq; for every seq up to keyMaxSeq it
returns a key, so under the documented precondition the panic branch is
unreachable. -/
theorem makeInternalKey_panic_iff (ukey : List Nat) (seq : Nat) (dFlag : Bool) (expiresAt : Nat) :
    makeInternalKey ukey seq dFlag expiresAt = none ↔ keyMaxSeq < seq := by
  unfold makeInternalKey
  by_cases h : keyMaxSeq < seq
  · simp [h]
  · simp [h]

/-- Witness for internalKey_roundtrip at a concrete key. -/
theorem internalKey_roundtrip_witness :
    (5 ≤ keyMaxSeq ∧ 7 < 2 ^ 32) ∧
    ∃ ik, makeInternalKey [9, 8] 5 true 7 = some ik ∧
      ik = [9, 8] ++ toLE 8 ((5 <<< 8) ||| dBitOf true) ++ toLE 4 7 ∧
      ik.length = [9, 8].length + 12 ∧
      parseInternalKey ik = ([9, 8], 5, true, 7, false) :=
  ⟨⟨by norm_num [keyMaxSeq], by norm_num⟩,
    internalKey_roundtrip [9, 8] 5 true 7 (by norm_num [keyMaxSeq]) (by norm_num)⟩

/-! ## Batch records and deduplication (batch.go lines 24 to 31 and 468 to 488) -/

/-- Model of the batchIndex record of batch.go.  The uint16 and uint32
fields are Nat values kept reduced by the operations that build them. -/
structure BatchIndex where
  delFlag : Bool
  hash : Nat
  keySize : Nat
  valueSize : Nat
  expiresAt : Nat
  kvOffset : Nat
deriving DecidableEq, Repr

/-- Hashes of a list of batch records, in order. -/
def hashesOf (l : List BatchIndex) : List Nat := l.map BatchIndex.hash

/-- Model of the right-to-left loop of uniq: traverse the records,
keeping a record exactly when its hash has not been seen yet, and
accumulating seen hashes.  Applied to the reversed index this is the Go
loop over idx from the last record down to the first, and its output
order is the discovery order, which the Go code records in newidx. -/
def keepFirst (seen : List Nat) : List BatchIndex → List BatchIndex
  | [] => []
  | x :: xs => if x.hash ∈ seen then keepFirst seen xs else x :: keepFirst (x.hash :: seen) xs

/-- Seen-hash accumulator of keepFirst after a traversal, the model of
the unique_set keys built by the Go loop. -/
def seenAfter (seen : List Nat) : List BatchIndex → List Nat
  | [] => seen
  | x :: xs => if x.hash ∈ seen then seenAfter seen xs else seenAfter (x.hash :: seen) xs

/-- Model of uniq of batch.go.  The Go code walks the index right to
left, keeping the first occurrence of each hash it meets and numbering
the survivors with newidx in discovery order, then writes survivor
newidx into slot (n - newidx - 1) of pendingWrites; the resulting list is
therefore the reverse of the right-to-left discovery order. -/
def uniq (index : List BatchIndex) : List BatchIndex :=
  (keepFirst [] index.reverse).reverse

/-- Reference predicate for the expected output of uniq, written from
the claim: keep a record exactly when its hash does not occur again
later in the index, that is keep only the rightmost occurrence of every
hash, in the original relative order. -/
def lastOcc : List BatchIndex → List BatchIndex
  | [] => []
  | x :: xs => if x.hash ∈ hashesOf xs then lastOcc xs else x :: lastOcc xs

theorem keepFirst_append (seen : List Nat) (a b : List BatchIndex) :
    keepFirst seen (a ++ b) = keepFirst seen a ++ keepFirst (seenAfter seen a) b := by
  induction a generalizing seen with
  | nil => simp [keepFirst, seenAfter]
  | cons y ys ih =>
    by_cases hy : y.hash ∈ seen
    · simp [keepFirst, seenAfter, hy, ih]
    · simp [keepFirst, seenAfter, hy, ih]

theorem mem_seenAfter (seen : List Nat) (l : List BatchIndex) (a : Nat) :
    a ∈ seenAfter seen l ↔ a ∈ seen ∨ a ∈ hashesOf l := by
  induction l generalizing seen with
  | nil => simp [seenAfter, hashesOf]
  | cons y ys ih =>
    by_cases hy : y.hash ∈ seen
    · rw [seenAfter, if_pos hy, ih]
      simp only [hashesOf, List.map_cons, List.mem_cons]
      constructor
      · rintro (h | h)
        · exact Or.inl h
        · exact Or.inr (Or.inr h)
      · rintro (h | h | h)
        · exact Or.inl h
        · exact Or.inl (h ▸ hy)
        · exact Or.inr h
    · rw [seenAfter, if_neg hy, ih]
      simp only [hashesOf, List.map_cons, List.mem_cons]
      tauto

theorem uniq_eq_lastOcc (index : List BatchIndex) : uniq index = lastOcc index := by
  induction index with
  | nil => rfl
  | cons x xs ih =>
    unfold uniq at ih ⊢
    rw [List.reverse_cons, keepFirst_append, List.reverse_append]
    rw [ih]
    have hmem : (x.hash ∈ seenAfter [] xs.reverse) ↔ x.hash ∈ hashesOf xs := by
      rw [mem_seenAfter]
      simp [hashesOf]
    have hlo : lastOcc (x :: xs) =
        if x.hash ∈ hashesOf xs then lastOcc xs else x :: lastOcc xs := rfl
    rw [hlo]
    by_cases hx : x.hash ∈ hashesOf xs
    · rw [if_pos hx]
      have hin : x.hash ∈ seenAfter [] xs.reverse := hmem.mpr hx
      simp [keepFirst, hin]
    · rw [if_neg hx]
      have hnotin : x.hash ∉ seenAfter [] xs.reverse := fun h => hx (hmem.mp h)
      simp [keepFirst, hnotin]

theorem hashesOf_lastOcc_subset (l : List BatchIndex) (a : Nat)
    (h : a ∈ hashesOf (lastOcc l)) : a ∈ hashesOf l := by
  induction l with
  | nil => simpa [lastOcc] using h
  | cons x xs ih =>
    rw [lastOcc] at h
    by_cases hx : x.hash ∈ hashesOf xs
    · rw [if_pos hx] at h
      simp only [hashesOf, List.map_cons, List.mem_cons]
      exact Or.inr (ih h)
    · rw [if_neg hx] at h
      simp only [hashesOf, List.map_cons, List.mem_cons] at h ⊢
      rcases h with h | h
      · exact Or.inl h
      · exact Or.inr (ih h)

theorem nodup_hashesOf_lastOcc (l : List BatchIndex) : (hashesOf (lastOcc l)).Nodup := by
  induction l with
  | nil => simp [lastOcc, hashesOf]
  | cons x xs ih =>
    rw [lastOcc]
    by_cases hx : x.hash ∈ hashesOf xs
    · rw [if_pos hx]; exact ih
    · rw [if_neg hx]
      simp only [hashesOf, List.map_cons, List.nodup_cons]
      exact ⟨fun h => hx (hashesOf_lastOcc_subset xs x.hash h), ih⟩

theorem lastOcc_sublist (l : List BatchIndex) : (lastOcc l).Sublist l := by
  induction l with
  | nil => simp [lastOcc]
  | cons x xs ih =>
    rw [lastOcc]
    by_cases hx : x.hash ∈ hashesOf xs
    · rw [if_pos hx]; exact ih.trans (List.sublist_cons_self x xs)
    · rw [if_neg hx]; exact ih.cons₂ x

theorem mem_hashesOf_lastOcc (l : List BatchIndex) (a : Nat) :
    a ∈ hashesOf l ↔ a ∈ hashesOf (lastOcc l) := by
  constructor
  · intro h
    induction l with
    | nil => simp [hashesOf] at h
    | cons x xs ih =>
      rw [lastOcc]
      simp only [hashesOf, List.map_cons, List.mem_cons] at h
      by_cases hx : x.hash ∈ hashesOf xs
      · rw [if_pos hx]
        rcases h with h | h
        · exact ih (h ▸ hx)
        · exact ih h
      · rw [if_neg hx]
        simp only [hashesOf, List.map_cons, List.mem_cons]
        rcases h with h | h
        · exact Or.inl h
        · exact Or.inr (ih h)
  · exact hashesOf_lastOcc_subset l a

/-- C1: after uniq, the pending writes contain each hash at most once;
the surviving record of each hash is its rightmost occurrence in the
original index (uniq equals lastOcc, which keeps a record exactly when
its hash does not reappear later); the survivors keep the relative order
of the original index (the result is a sublist of the index); and no
hash of the index is lost. -/
theorem uniq_correct (index : List BatchIndex) :
    uniq index = lastOcc index ∧
    (hashesOf (uniq index)).Nodup ∧
    (uniq index).Sublist index ∧
    (∀ h, h ∈ hashesOf index ↔ h ∈ hashesOf (uniq index)) := by
  refine ⟨uniq_eq_lastOcc index, ?_, ?_, ?_⟩
  · rw [uniq_eq_lastOcc]; exact nodup_hashesOf_lastOcc index
  · rw [uniq_eq_lastOcc]; exact lastOcc_sublist index
  · intro h
    rw [uniq_eq_lastOcc]
    exact mem_hashesOf_lastOcc index h

/-! ## Batch state and record building (batch.go lines 91 to 222) -/

/-- Model of the Batch struct of batch.go.  The db and mem pointers are
replaced by the memOpen flag (false models a nil mem pointer) and by
passing the memdb state explicitly to the operations that touch it. -/
structure Batch where
  managed : Bool
  seq : Nat
  data : List Nat
  index : List BatchIndex
  pendingWrites : List BatchIndex
  firstKeyHash : Nat
  keys : List Nat
  internalLen : Nat
  memOpen : Bool
deriving DecidableEq, Repr

/-- Model of appendRec of batch.go.  The hash function of the memdb
lives in a source file that is not part of src and is passed as a
parameter.  The record keeps keySize as uint16 and valueSize as uint32,
hence the reductions; internalLen is a uint32 accumulator.  The data
buffer grows by one flag byte, the key and, for puts only, the value,
and kvOffset points just past the flag byte. -/
def appendRec (hashFn : List Nat → Nat) (b : Batch) (dFlag : Bool) (expiresAt : Nat)
    (key value : List Nat) : Batch :=
  let idx : BatchIndex :=
    { delFlag := dFlag, hash := hashFn key, keySize := key.length % 2 ^ 16,
      valueSize := if dFlag then 0 else value.length % 2 ^ 32,
      expiresAt := expiresAt, kvOffset := b.data.length + 1 }
  { b with
    data := b.data ++ (if dFlag then 1 else 0) :: (key ++ if dFlag then [] else value),
    index := b.index ++ [idx],
    internalLen := (b.internalLen + key.length % 2 ^ 16 +
      (if dFlag then 0 else value.length % 2 ^ 32) + 8) % 2 ^ 32 }

/-- Model of PutWithTTL.  The Go code turns a nonzero ttl into an
absolute uint32 expiry from the current clock; the clock reading is the
now parameter. -/
def PutWithTTL (hashFn : List Nat → Nat) (b : Batch) (key value : List Nat)
    (now ttl : Nat) : Batch :=
  appendRec hashFn b false (if ttl ≠ 0 then (now + ttl) % 2 ^ 32 else 0) key value

/-- Model of Put, which is PutWithTTL with a zero ttl. -/
def Put (hashFn : List Nat → Nat) (b : Batch) (key value : List Nat) : Batch :=
  PutWithTTL hashFn b key value 0 0

/-- Model of Delete, which appends a delete record with a nil value and
zero expiry. -/
def Delete (hashFn : List Nat → Nat) (b : Batch) (key : List Nat) : Batch :=
  appendRec hashFn b true 0 key []

/-- C9: Put, PutWithTTL and Delete are total (never fail, validation is
deferred to Write); each appends exactly one record to the index,
increases internalLen by keySize plus valueSize plus 8 in uint32
arithmetic with valueSize zero for deletes, and appends to the data
buffer one flag byte followed by the key and, for puts only, the
value. -/
theorem batch_ops_spec (hashFn : List Nat → Nat) (b : Batch) (key value : List Nat)
    (now ttl : Nat) :
    ((Put hashFn b key value).index = b.index ++
        [{ delFlag := false, hash := hashFn key, keySize := key.length % 2 ^ 16,
           valueSize := value.length % 2 ^ 32, expiresAt := 0,
           kvOffset := b.data.length + 1 }] ∧
      (Put hashFn b key value).internalLen =
        (b.internalLen + key.length % 2 ^ 16 + value.length % 2 ^ 32 + 8) % 2 ^ 32 ∧
      (Put hashFn b key value).data = b.data ++ 0 :: (key ++ value)) ∧
    ((PutWithTTL hashFn b key value now ttl).index = b.index ++
        [{ delFlag := false, hash := hashFn key, keySize := key.length % 2 ^ 16,
           valueSize := value.length % 2 ^ 32,
           expiresAt := if ttl ≠ 0 then (now + ttl) % 2 ^ 32 else 0,
           kvOffset := b.data.length + 1 }] ∧
      (PutWithTTL hashFn b key value now ttl).internalLen =
        (b.internalLen + key.length % 2 ^ 16 + value.length % 2 ^ 32 + 8) % 2 ^ 32 ∧
      (PutWithTTL hashFn b key value now ttl).data = b.data ++ 0 :: (key ++ value)) ∧
    ((Delete hashFn b key).index = b.index ++
        [{ delFlag := true, hash := hashFn key, keySize := key.length % 2 ^ 16,
           valueSize := 0, expiresAt := 0, kvOffset := b.data.length + 1 }] ∧
      (Delete hashFn b key).internalLen =
        (b.internalLen + key.length % 2 ^ 16 + 0 + 8) % 2 ^ 32 ∧
      (Delete hashFn b key).data = b.data ++ 1 :: key) := by
  refine ⟨⟨?_, ?_, ?_⟩, ⟨?_, ?_, ?_⟩, ⟨?_, ?_, ?_⟩⟩ <;>
    simp [Put, PutWithTTL, Delete, appendRec]

/-! ## Memdb staging state and mput (batch.go lines 169 to 233) -/

/-- One staged entry of the memdb as written by mput: the key hash, the
encoded internal key, the value and the expiry. -/
structure MemEntry where
  hash : Nat
  ikey : List Nat
  value : List Nat
  expiresAt : Nat
deriving DecidableEq, Repr

/-- Decoded view of one staged slot of the memdb, as seen by the commit
scan after parseInternalKey: the sequence, the delete flag, the user key,
the value and the expiry. -/
structure Slot where
  seq : Nat
  delFlag : Bool
  key : List Nat
  value : List Nat
  expiresAt : Nat
deriving DecidableEq, Repr

/-- Model of the memdb state visible to the batch layer.  The memdb
implementation is in a source file that is not part of src; entries
models its staging table content, slots models the same content in the
decoded form and order in which the commit scan of batch.go visits it,
activeBatches is the fingerprint map keyed by batch seq, and refcount is
the reference count. -/
structure Memdb where
  entries : List MemEntry
  count : Nat
  nBuckets : Nat
  slots : List Slot
  activeBatches : List (Nat × List Nat)
  refcount : Nat
deriving DecidableEq, Repr

/-- Modelled from the spec: the bucket capacity constant of the memdb is
declared in a source file missing from src; the claims proved here do
not depend on its value. -/
def entriesPerBucket : Nat := 22

/-- Modelled from the spec: the split trigger compares count over
capacity with a float load factor declared in a source file missing from
src; it is modelled as the rational seven tenths by cross
multiplication. -/
def loadExceeded (count nBuckets : Nat) : Bool :=
  decide (nBuckets * entriesPerBucket * 7 < count * 10)

/-- Modelled from the spec: memdb.put of the missing memdb source
inserts the entry into the staging table; the bucket chain walk is
abstracted to appending the entry and incrementing count. -/
def memPut (mem : Memdb) (h : Nat) (ikey value : List Nat) (expiresAt : Nat) : Memdb :=
  { mem with entries := mem.entries ++ [⟨h, ikey, value, expiresAt⟩],
             count := mem.count + 1 }

/-- Modelled from the spec: split of the missing memdb source doubles
the bucket count and redistributes the entries without changing the
entry set. -/
def memSplit (mem : Memdb) : Memdb := { mem with nBuckets := 2 * mem.nBuckets }

/-- Modelled from the spec: the MaxKeyLength limit is declared in a
source file missing from src; the claims do not depend on its value. -/
def MaxKeyLength : Nat := 65535

/-- Modelled from the spec: the MaxValueLength limit is declared in a
source file missing from src; the claims do not depend on its value. -/
def MaxValueLength : Nat := 1 <<< 30

/-- Model of hasWriteConflict of batch.go: scan every fingerprint list
of every active batch for the given hash. -/
def hasWriteConflict (activeBatches : List (Nat × List Nat)) (h : Nat) : Bool :=
  activeBatches.any fun ab => ab.2.any fun k => k == h

/-- Errors surfaced by mput.  The Go panic of makeInternalKey on a
sequence overflow is modelled as invalidSeq. -/
inductive MputErr
  | keyEmpty
  | keyTooLarge
  | valueTooLarge
  | writeConflict
  | invalidSeq
deriving DecidableEq, Repr

/-- Model of mput of batch.go.  The error cases return the batch and the
memdb unchanged, modelling the early Go returns that leave both
untouched. -/
def mput (b : Batch) (mem : Memdb) (dFlag : Bool) (h : Nat) (expiresAt : Nat)
    (key value : List Nat) : Option MputErr × Batch × Memdb :=
  if key.length = 0 then (some .keyEmpty, b, mem)
  else if MaxKeyLength < key.length then (some .keyTooLarge, b, mem)
  else if MaxValueLength < value.length then (some .valueTooLarge, b, mem)
  else if hasWriteConflict mem.activeBatches h then (some .writeConflict, b, mem)
  else
    match makeInternalKey key (b.seq + 1) dFlag expiresAt with
    | none => (some .invalidSeq, b, mem)
    | some k =>
      let mem1 := memPut mem h k value expiresAt
      let mem2 := if loadExceeded mem1.count mem1.nBuckets then memSplit mem1 else mem1
      let b1 := if b.firstKeyHash = 0 then { b with firstKeyHash := h } else b
      (none, { b1 with seq := b.seq + 1 }, mem2)

/-- C2: when the key and value pass validation, mput reports a write
conflict exactly when the hash occurs in some fingerprint list of
activeBatches, and in the conflict case it returns before touching the
memdb, with batch and memdb unchanged. -/
theorem mput_conflict_iff (b : Batch) (mem : Memdb) (dFlag : Bool) (h : Nat)
    (expiresAt : Nat) (key value : List Nat)
    (hk : key.length ≠ 0) (hk2 : key.length ≤ MaxKeyLength)
    (hv : value.length ≤ MaxValueLength) :
    ((mput b mem dFlag h expiresAt key value).1 = some MputErr.writeConflict ↔
      ∃ ab ∈ mem.activeBatches, h ∈ ab.2) ∧
    (hasWriteConflict mem.activeBatches h = true →
      mput b mem dFlag h expiresAt key value = (some MputErr.writeConflict, b, mem)) := by
  have hconf : hasWriteConflict mem.activeBatches h = true ↔ ∃ ab ∈ mem.activeBatches, h ∈ ab.2 := by
    simp [hasWriteConflict, List.any_eq_true, beq_iff_eq]
  unfold mput
  rw [if_neg hk, if_neg (not_lt.mpr hk2), if_neg (not_lt.mpr hv)]
  by_cases hc : hasWriteConflict mem.activeBatches h
  · rw [if_pos hc]
    exact ⟨⟨fun _ => hconf.mp hc, fun _ => rfl⟩, fun _ => rfl⟩
  · rw [if_neg hc]
    constructor
    · constructor
      · intro hres
        cases hmk : makeInternalKey key (b.seq + 1) dFlag expiresAt with
        | none => rw [hmk] at hres; simp at hres
        | some k => rw [hmk] at hres; simp at hres
      · intro hex
        exact absurd (hconf.mpr hex) hc
    · intro hct
      exact absurd hct hc

/-- Sample batch state used by concrete witnesses. -/
def sampleBatch : Batch :=
  { managed := false, seq := 2, data := [], index := [],
    pendingWrites := [{ delFlag := false, hash := 5, keySize := 1, valueSize := 1,
                        expiresAt := 0, kvOffset := 1 }],
    firstKeyHash := 5, keys := [5], internalLen := 10, memOpen := true }

/-- Sample memdb state used by concrete witnesses; batch seq 3 holds the
fingerprints 5 and 9. -/
def sampleMemdb : Memdb :=
  { entries := [], count := 0, nBuckets := 1,
    slots := [⟨1, false, [1], [2], 0⟩, ⟨2, false, [3], [4], 0⟩, ⟨3, false, [5], [6], 0⟩],
    activeBatches := [(3, [5, 9])], refcount := 1 }

/-- Witness for mput_conflict_iff: hash 5 clashes with the fingerprints
of the active batch of sampleMemdb and mput returns the conflict error
with the state unchanged. -/
theorem mput_conflict_iff_witness :
    (([1] : List Nat).length ≠ 0 ∧ ([1] : List Nat).length ≤ MaxKeyLength ∧
      ([2] : List Nat).length ≤ MaxValueLength ∧
      hasWriteConflict sampleMemdb.activeBatches 5 = true) ∧
    mput sampleBatch sampleMemdb false 5 0 [1] [2] =
      (some MputErr.writeConflict, sampleBatch, sampleMemdb) :=
  ⟨⟨by decide, by decide, by decide, by decide⟩,
    (mput_conflict_iff sampleBatch sampleMemdb false 5 0 [1] [2]
      (by decide) (by decide) (by decide)).2 (by decide)⟩

/-! ## Commit (batch.go lines 278 to 451) -/

/-- Sentinel raised by the commit scan when it passes the upper end of
the seq range of the batch. -/
inductive CommitErr
  | batchSeqComplete
deriving DecidableEq, Repr

/-- Abstract state of the durable side touched by commit: the on-disk
bucket index and data heap are abstracted to the ordered list of slots
applied to them, plus the put and delete counters fed to the metrics. -/
structure DBState where
  applied : List Slot
  putCount : Nat
  delCount : Nat
deriving DecidableEq, Repr

/-- One application of an in-range slot to the durable state.  This
abstracts the bucket chain write path of commit (batch.go lines 319 to
419), which the claims settled here do not inspect. -/
def applySlot (db : DBState) (s : Slot) : DBState :=
  if s.delFlag then { db with applied := db.applied ++ [s], delCount := db.delCount + 1 }
  else { db with applied := db.applied ++ [s], putCount := db.putCount + 1 }

/-- Go uint64 subtraction, wrapping modulo two to the 64. -/
def sub64 (a b : Nat) : Nat := (a % 2 ^ 64 + 2 ^ 64 - b % 2 ^ 64) % 2 ^ 64

/-- The seq filter of the commit scan over the staged slots in scan
order: a slot with seq at most lo is skipped, a slot with seq above hi
stops the scan raising batchSeqComplete, and every other slot is
applied.  Returns the applied slots in order and the scan outcome. -/
def commitScan (lo hi : Nat) : List Slot → List Slot × Option CommitErr
  | [] => ([], none)
  | s :: ss =>
    if s.seq ≤ lo then commitScan lo hi ss
    else if hi < s.seq then ([], some CommitErr.batchSeqComplete)
    else
      let r := commitScan lo hi ss
      (s :: r.1, r.2)

/-- Model of commit of batch.go: an empty pendingWrites list returns nil
at once; otherwise the scan runs over the staged slots with the range
bounds seq minus Len and seq, the batchSeqComplete sentinel only breaks
the bucket loop, the fingerprint list of the batch is removed from
activeBatches and nil is returned. -/
def commit (b : Batch) (mem : Memdb) (db : DBState) :
    Option CommitErr × Memdb × DBState :=
  if b.pendingWrites.length = 0 then (none, mem, db)
  else
    let r := commitScan (sub64 b.seq b.pendingWrites.length) b.seq mem.slots
    let db1 := r.1.foldl applySlot db
    let mem1 := { mem with activeBatches := mem.activeBatches.filter fun ab => ab.1 ≠ b.seq }
    match r.2 with
    | some CommitErr.batchSeqComplete => (none, mem1, db1)
    | none => (none, mem1, db1)

/-- Model of Commit of batch.go: committing a managed batch panics
(none); a nil memdb pointer or a zero reference count returns nil with
no effect; otherwise commit runs. -/
def Commit (b : Batch) (mem : Memdb) (db : DBState) :
    Option (Option CommitErr × Memdb × DBState) :=
  if b.managed then none
  else if b.memOpen = false ∨ mem.refcount = 0 then some (none, mem, db)
  else some (commit b mem db)

theorem sub64_eq (a b : Nat) (hb : b ≤ a) (ha : a < 2 ^ 64) : sub64 a b = a - b := by
  unfold sub64
  have hb64 : b < 2 ^ 64 := lt_of_le_of_lt hb ha
  rw [Nat.mod_eq_of_lt ha, Nat.mod_eq_of_lt hb64]
  omega

theorem commitScan_applied (lo hi : Nat) (l : List Slot)
    (hsorted : l.Pairwise fun s t => s.seq ≤ t.seq) :
    (commitScan lo hi l).1 = l.filter fun s => decide (lo < s.seq) && decide (s.seq ≤ hi) := by
  induction l with
  | nil => rfl
  | cons s ss ih =>
    rw [List.pairwise_cons] at hsorted
    obtain ⟨hs, hss⟩ := hsorted
    by_cases h1 : s.seq ≤ lo
    · rw [commitScan, if_pos h1, ih hss]
      have : ¬ lo < s.seq := not_lt.mpr h1
      simp [List.filter_cons, this]
    · by_cases h2 : hi < s.seq
      · rw [commitScan, if_neg h1, if_pos h2]
        have hall : ss.filter (fun t => decide (lo < t.seq) && decide (t.seq ≤ hi)) = [] := by
          rw [List.filter_eq_nil_iff]
          intro t ht
          have := hs t ht
          simp only [Bool.and_eq_true, decide_eq_true_eq]
          omega
        have hsfail : ¬ s.seq ≤ hi := h2.not_le
        simp [List.filter_cons, hsfail, hall]
      · rw [commitScan, if_neg h1, if_neg h2]
        show s :: (commitScan lo hi ss).1 =
          List.filter (fun s => decide (lo < s.seq) && decide (s.seq ≤ hi)) (s :: ss)
        rw [ih hss]
        have hkeep : lo < s.seq ∧ s.seq ≤ hi := ⟨not_le.mp h1, not_lt.mp h2⟩
        simp [List.filter_cons, hkeep.1, hkeep.2]

theorem commitScan_sentinel (lo hi : Nat) (l : List Slot) (hlohi : lo ≤ hi) :
    (commitScan lo hi l).2 = some CommitErr.batchSeqComplete ↔ ∃ s ∈ l, hi < s.seq := by
  induction l with
  | nil => simp [commitScan]
  | cons s ss ih =>
    by_cases h1 : s.seq ≤ lo
    · rw [commitScan, if_pos h1, ih]
      constructor
      · rintro ⟨t, ht, htt⟩
        exact ⟨t, List.mem_cons_of_mem s ht, htt⟩
      · rintro ⟨t, ht, htt⟩
        rcases List.mem_cons.mp ht with h | h
        · subst h; omega
        · exact ⟨t, h, htt⟩
    · by_cases h2 : hi < s.seq
      · rw [commitScan, if_neg h1, if_pos h2]
        simp only [true_iff]
        exact ⟨s, List.mem_cons_self s ss, h2⟩
      · rw [commitScan, if_neg h1, if_neg h2]
        show (commitScan lo hi ss).2 = some CommitErr.batchSeqComplete ↔ _
        rw [ih]
        constructor
        · rintro ⟨t, ht, htt⟩
          exact ⟨t, List.mem_cons_of_mem s ht, htt⟩
        · rintro ⟨t, ht, htt⟩
          rcases List.mem_cons.mp ht with h | h
          · subst h; omega
          · exact ⟨t, h, htt⟩

theorem foldl_applySlot_applied (l : List Slot) (db : DBState) :
    (l.foldl applySlot db).applied = db.applied ++ l := by
  induction l generalizing db with
  | nil => simp
  | cons s ss ih =>
    rw [List.foldl_cons, ih]
    unfold applySlot
    by_cases h : s.delFlag <;> simp [h]

theorem commit_fst (b : Batch) (mem : Memdb) (db : DBState) : (commit b mem db).1 = none := by
  unfold commit
  split
  · rfl
  · dsimp only
    split <;> rfl

theorem commit_state (b : Batch) (mem : Memdb) (db : DBState)
    (h : b.pendingWrites.length ≠ 0) :
    (commit b mem db).2.2 =
      ((commitScan (sub64 b.seq b.pendingWrites.length) b.seq mem.slots).1).foldl applySlot db := by
  unfold commit
  rw [if_neg h]
  dsimp only
  split <;> rfl

/-- C3: under the normal seq accounting (Len at most seq, seq a uint64
value) and the staged slots visited in ascending seq order, the commit
scan applies exactly the slots whose seq lies in the half-open range
from seq minus Len exclusive to seq inclusive: slots at or below the
lower bound are skipped, the scan stops with the batchSeqComplete
sentinel exactly when a slot above seq exists, and commit never
surfaces the sentinel to its caller, returning nil. -/
theorem commit_seq_range (b : Batch) (mem : Memdb) (db : DBState)
    (hne : b.pendingWrites ≠ [])
    (hlen : b.pendingWrites.length ≤ b.seq)
    (hseq : b.seq < 2 ^ 64)
    (hsorted : mem.slots.Pairwise fun s t => s.seq ≤ t.seq) :
    (commitScan (b.seq - b.pendingWrites.length) b.seq mem.slots).1 =
      mem.slots.filter (fun s =>
        decide (b.seq - b.pendingWrites.length < s.seq) && decide (s.seq ≤ b.seq)) ∧
    ((commitScan (b.seq - b.pendingWrites.length) b.seq mem.slots).2 =
        some CommitErr.batchSeqComplete ↔ ∃ s ∈ mem.slots, b.seq < s.seq) ∧
    (commit b mem db).1 = none ∧
    (commit b mem db).2.2.applied = db.applied ++
      mem.slots.filter (fun s =>
        decide (b.seq - b.pendingWrites.length < s.seq) && decide (s.seq ≤ b.seq)) := by
  have hlz : b.pendingWrites.length ≠ 0 := by
    intro h
    exact hne (List.length_eq_zero.mp h)
  have hsub : sub64 b.seq b.pendingWrites.length = b.seq - b.pendingWrites.length :=
    sub64_eq _ _ hlen hseq
  refine ⟨commitScan_applied _ _ _ hsorted, ?_, commit_fst b mem db, ?_⟩
  · exact commitScan_sentinel _ _ _ (by omega)
  · rw [commit_state b mem db hlz, hsub, foldl_applySlot_applied,
      commitScan_applied _ _ _ hsorted]

/-- Sample durable state used by concrete witnesses. -/
def sampleDB : DBState := { applied := [], putCount := 0, delCount := 0 }

/-- Witness for commit_seq_range on the sample states: the batch owns
seq 2 with one pending write, the staged slots carry seqs 1, 2 and 3, so
exactly the slot with seq 2 is applied, the sentinel fires on seq 3 and
commit returns nil. -/
theorem commit_seq_range_witness :
    (sampleBatch.pendingWrites ≠ [] ∧
      sampleBatch.pendingWrites.length ≤ sampleBatch.seq ∧
      sampleBatch.seq < 2 ^ 64 ∧
      sampleMemdb.slots.Pairwise fun s t => s.seq ≤ t.seq) ∧
    ((commitScan (sampleBatch.seq - sampleBatch.pendingWrites.length) sampleBatch.seq
        sampleMemdb.slots).1 =
      sampleMemdb.slots.filter (fun s =>
        decide (sampleBatch.seq - sampleBatch.pendingWrites.length < s.seq) &&
        decide (s.seq ≤ sampleBatch.seq)) ∧
    ((commitScan (sampleBatch.seq - sampleBatch.pendingWrites.length) sampleBatch.seq
        sampleMemdb.slots).2 =
        some CommitErr.batchSeqComplete ↔ ∃ s ∈ sampleMemdb.slots, sampleBatch.seq < s.seq) ∧
    (commit sampleBatch sampleMemdb sampleDB).1 = none ∧
    (commit sampleBatch sampleMemdb sampleDB).2.2.applied = sampleDB.applied ++
      sampleMemdb.slots.filter (fun s =>
        decide (sampleBatch.seq - sampleBatch.pendingWrites.length < s.seq) &&
        decide (s.seq ≤ sampleBatch.seq))) :=
  ⟨⟨by decide, by decide, by decide, by decide⟩,
    commit_seq_range sampleBatch sampleMemdb sampleDB
      (by decide) (by decide) (by decide) (by decide)⟩

/-- C10: Commit on a batch whose memdb pointer is nil or whose memdb
reference count is zero, or whose pendingWrites list is empty, returns
nil and leaves the memdb state (including activeBatches) and the durable
state (index, heap abstraction and counters) unchanged. -/
theorem Commit_noop (b : Batch) (mem : Memdb) (db : DBState)
    (hm : b.managed = false)
    (h : b.memOpen = false ∨ mem.refcount = 0 ∨ b.pendingWrites = []) :
    Commit b mem db = some (none, mem, db) := by
  unfold Commit
  rw [if_neg (by simp [hm])]
  by_cases h2 : b.memOpen = false ∨ mem.refcount = 0
  · rw [if_pos h2]
  · rw [if_neg h2]
    have hpw : b.pendingWrites = [] := by tauto
    unfold commit
    rw [if_pos (by simp [hpw])]

/-- Batch with an empty pendingWrites list used by the Commit witness. -/
def emptyBatch : Batch :=
  { managed := false, seq := 0, data := [], index := [], pendingWrites := [],
    firstKeyHash := 0, keys := [], internalLen := 0, memOpen := true }

/-- Witness for Commit_noop: a batch that never ran Write (empty
pendingWrites) commits to nil with no state change. -/
theorem Commit_noop_witness :
    (emptyBatch.managed = false ∧
      (emptyBatch.memOpen = false ∨ sampleMemdb.refcount = 0 ∨
        emptyBatch.pendingWrites = [])) ∧
    Commit emptyBatch sampleMemdb sampleDB = some (none, sampleMemdb, sampleDB) :=
  ⟨⟨by decide, by decide⟩,
    Commit_noop emptyBatch sampleMemdb sampleDB (by decide) (by decide)⟩

end Tracedb

namespace Wal

/-! ## Write-ahead log descriptors (wal/wal.go) -/

/-- Status of a log descriptor: written but not yet applied, or applied
and reclaimable. -/
inductive LogStatus
  | written
  | applied
deriving DecidableEq, Repr

/-- Model of the logInfo descriptor of the WAL: per-log sequence range,
entry count, file extent and status. -/
structure LogInfo where
  seq : Nat
  upperSeq : Nat
  entryCount : Nat
  offset : Nat
  size : Nat
  status : LogStatus
deriving DecidableEq, Repr

/-- Model of Scan of wal.go: walk the in-memory log list in order and
collect the seq and upperSeq of every descriptor whose status is still
written.  After recovery the list holds only written descriptors, so
Scan yields exactly the written-but-not-applied sequences. -/
def Scan : List LogInfo → List Nat × List Nat
  | [] => ([], [])
  | l :: ls =>
    if l.status = LogStatus.written
    then (l.seq :: (Scan ls).1, l.upperSeq :: (Scan ls).2)
    else Scan ls

/-- C5: Scan returns exactly the seq and upperSeq pairs of the log
descriptors whose status is written, in list order; descriptors in the
applied status contribute nothing. -/
theorem Scan_written (logs : List LogInfo) :
    Scan logs =
      ((logs.filter fun l => l.status == LogStatus.written).map LogInfo.seq,
       (logs.filter fun l => l.status == LogStatus.written).map LogInfo.upperSeq) := by
  induction logs with
  | nil => rfl
  | cons l ls ih =>
    by_cases h : l.status = LogStatus.written
    · rw [Scan, if_pos h, ih]
      simp [List.filter_cons, h]
    · rw [Scan, if_neg h, ih]
      simp [List.filter_cons, h]

/-! ## Free blocks and log reclaim (wal/wal.go lines 241 to 293) -/

/-- Modelled from the spec: align rounds a size up to the next block
boundary; the block size constant lives in the wal file layer, which is
missing from src, and is taken as 512 here. -/
def align (n : Nat) : Nat := (n + 511) / 512 * 512

/-- Modelled from the spec: the on-disk size of a log header; the
constant lives in the wal file layer, which is missing from src.  Its
value does not affect the claims proved here. -/
def logHeaderSize : Nat := 26

/-- Model of the two free-block zones of the log file: the stable zone
(offset, size) and the current zone (currOffset, currSize). -/
structure FreeBlock where
  offset : Nat
  size : Nat
  currOffset : Nat
  currSize : Nat
deriving DecidableEq, Repr

/-- One iteration of the logMerge loop body of wal.go on an applied log:
a log adjacent to the current zone extends it; otherwise a log adjacent
to the stable zone extends the stable zone, and a nonempty stable zone
that reaches the current zone is collapsed into it. -/
def mergeStep (fb : FreeBlock) (l : LogInfo) : FreeBlock :=
  if fb.currOffset + fb.currSize = l.offset then
    { fb with currSize := fb.currSize + align (l.size + logHeaderSize) }
  else
    let fb1 :=
      if fb.offset + fb.size = l.offset then
        { fb with size := fb.size + align (l.size + logHeaderSize) }
      else fb
    if fb1.size ≠ 0 ∧ fb1.currOffset ≤ fb1.offset + fb1.size then
      { fb1 with currOffset := fb1.offset, currSize := fb1.currSize + align fb1.size,
                 size := 0 }
    else fb1

/-- Model of logMerge of wal.go starting at the given suffix of the log
list: fold the merge step over every log in the applied status,
skipping the others.  The header rewrite and sync of the Go code are
file I O and are omitted. -/
def logMergeList (fb : FreeBlock) : List LogInfo → FreeBlock
  | [] => fb
  | l :: ls =>
    if l.status = LogStatus.applied then logMergeList (mergeStep fb l) ls
    else logMergeList fb ls

/-- The status update SignalLogApplied performs on one descriptor: a
written log with upperSeq at most the given bound becomes applied, any
other log is untouched. -/
def markIf (u : Nat) (l : LogInfo) : LogInfo :=
  if l.status = LogStatus.written ∧ l.upperSeq ≤ u then { l with status := LogStatus.applied }
  else l

/-- Model of the marking loop of SignalLogApplied: walk the sorted log
list; on each written log with upperSeq at most the bound, set the
status to applied (the Go code also persists the descriptor in place,
file I O omitted here) and run logMerge from that position on. -/
def signalLoop (u : Nat) : List LogInfo → FreeBlock → List LogInfo × FreeBlock
  | [], fb => ([], fb)
  | l :: ls, fb =>
    if l.status = LogStatus.written ∧ l.upperSeq ≤ u then
      let l1 := { l with status := LogStatus.applied }
      let fb1 := logMergeList fb (l1 :: ls)
      let r := signalLoop u ls fb1
      (l1 :: r.1, r.2)
    else
      let r := signalLoop u ls fb
      (l :: r.1, r.2)

/-- Model of the offset sort of SignalLogApplied.  The Go code uses an
unstable standard library sort with a strict comparison; any sort by
offset produces an offset-sorted permutation, modelled here by merge
sort with the reflexive comparison. -/
def sortByOffset (logs : List LogInfo) : List LogInfo :=
  logs.mergeSort fun a b => decide (a.offset ≤ b.offset)

/-- Model of SignalLogApplied of wal.go: sort the log list by offset,
then mark and merge. -/
def SignalLogApplied (u : Nat) (logs : List LogInfo) (fb : FreeBlock) :
    List LogInfo × FreeBlock :=
  signalLoop u (sortByOffset logs) fb

theorem signalLoop_fst (u : Nat) (lst : List LogInfo) (fb : FreeBlock) :
    (signalLoop u lst fb).1 = lst.map (markIf u) := by
  induction lst generalizing fb with
  | nil => rfl
  | cons l ls ih =>
    by_cases h : l.status = LogStatus.written ∧ l.upperSeq ≤ u
    · rw [signalLoop, if_pos h]
      dsimp only
      rw [ih, List.map_cons]
      unfold markIf
      rw [if_pos h]
    · rw [signalLoop, if_neg h]
      dsimp only
      rw [ih, List.map_cons]
      unfold markIf
      rw [if_neg h]

/-- C6: after SignalLogApplied with a bound, the log list is the
offset-sorted permutation of the input with exactly the written logs of
upperSeq at most the bound turned to applied and every other log
unchanged; and the merge step extends the current free zone by the
aligned extent of an applied log adjacent to it. -/
theorem SignalLogApplied_spec (u : Nat) (logs : List LogInfo) (fb : FreeBlock) :
    (SignalLogApplied u logs fb).1 = (sortByOffset logs).map (markIf u) ∧
    (sortByOffset logs).Perm logs ∧
    (sortByOffset logs).Pairwise (fun a b => a.offset ≤ b.offset) ∧
    (∀ l ∈ logs,
      (l.status = LogStatus.written ∧ l.upperSeq ≤ u →
        markIf u l = { l with status := LogStatus.applied }) ∧
      (¬ (l.status = LogStatus.written ∧ l.upperSeq ≤ u) → markIf u l = l)) ∧
    (∀ fb1 l, l.status = LogStatus.applied → fb1.currOffset + fb1.currSize = l.offset →
      mergeStep fb1 l =
        { fb1 with currSize := fb1.currSize + align (l.size + logHeaderSize) }) := by
  refine ⟨signalLoop_fst u _ fb, List.mergeSort_perm logs _, ?_, ?_, ?_⟩
  · have hs : (List.mergeSort logs fun a b => decide (a.offset ≤ b.offset)).Pairwise
        (fun a b : LogInfo => decide (a.offset ≤ b.offset) = true) := by
      apply List.sorted_mergeSort
      · intro a b c hab hbc
        simp only [decide_eq_true_eq] at hab hbc ⊢
        omega
      · intro a b
        simp only [Bool.or_eq_true, decide_eq_true_eq]
        omega
    exact hs.imp fun h => of_decide_eq_true h
  · intro l _
    constructor
    · intro h
      unfold markIf
      rw [if_pos h]
    · intro h
      unfold markIf
      rw [if_neg h]
  · intro fb1 l _ hadj
    unfold mergeStep
    rw [if_pos hadj]

/-- Concrete free block used by the SignalLogApplied witness. -/
def sampleFreeBlock : FreeBlock :=
  { offset := 600, size := 0, currOffset := 512, currSize := 0 }

/-- Concrete applied log adjacent to the current free zone, used by the
SignalLogApplied witness. -/
def sampleLog : LogInfo :=
  { seq := 1, upperSeq := 2, entryCount := 1, offset := 512, size := 10,
    status := LogStatus.applied }

/-- Witness for SignalLogApplied_spec: the merge step on an applied log
adjacent to the current free zone extends that zone by the aligned
extent. -/
theorem SignalLogApplied_spec_witness :
    (sampleLog.status = LogStatus.applied ∧
      sampleFreeBlock.currOffset + sampleFreeBlock.currSize = sampleLog.offset) ∧
    mergeStep sampleFreeBlock sampleLog =
      { sampleFreeBlock with
          currSize := sampleFreeBlock.currSize + align (sampleLog.size + logHeaderSize) } :=
  ⟨⟨by decide, by decide⟩,
    (SignalLogApplied_spec 0 [] sampleFreeBlock).2.2.2.2 sampleFreeBlock sampleLog
      (by decide) (by decide)⟩

end Wal
